import Mathlib

/-!
# Verification of the capability-based permissions middleware (rpc-cap)

A shallow embedding of `src/index.ts` (class `CapabilitiesController`) and of
the small helper module `./src/caveats` it imports.  JavaScript dynamic values
are embedded as the inductive `JVal`; JavaScript objects become association
lists; the mutable controller state becomes explicit state passing on the
`State` structure; the `uuid()` and `Date.now()` external effects become a
counter, respectively a fixed timestamp, threaded through `State`.
-/

namespace RpcCap

/-- A JSON-ish dynamic value, as delivered by a JSON-RPC transport.
`undefined` is not a `JVal`: absent values are represented with `Option`. -/
inductive JVal where
  | null
  | bool (b : Bool)
  | num (n : Int)
  | str (s : String)
  | arr (xs : List JVal)
  | obj (fields : List (String × JVal))
deriving Repr

mutual
/-- Structural (deep) equality of dynamic values. -/
def JVal.beq : JVal → JVal → Bool
  | .null, .null => true
  | .bool a, .bool b => a == b
  | .num a, .num b => a == b
  | .str a, .str b => a == b
  | .arr xs, .arr ys => JVal.beqList xs ys
  | .obj fs, .obj gs => JVal.beqFields fs gs
  | _, _ => false

def JVal.beqList : List JVal → List JVal → Bool
  | [], [] => true
  | x :: xs, y :: ys => JVal.beq x y && JVal.beqList xs ys
  | _, _ => false

def JVal.beqFields : List (String × JVal) → List (String × JVal) → Bool
  | [], [] => true
  | (k, v) :: fs, (l, w) :: gs => k == l && JVal.beq v w && JVal.beqFields fs gs
  | _, _ => false
end

theorem JVal.beq_eq : ∀ (a b : JVal), JVal.beq a b = true ↔ a = b := by
  apply JVal.beq.induct
    (motive_1 := fun a b => JVal.beq a b = true ↔ a = b)
    (motive_2 := fun fs gs => JVal.beqFields fs gs = true ↔ fs = gs)
    (motive_3 := fun xs ys => JVal.beqList xs ys = true ↔ xs = ys)
  · simp [JVal.beq]
  · intro a b; simp [JVal.beq]
  · intro a b; simp [JVal.beq]
  · intro a b; simp [JVal.beq]
  · intro a b ih; simp [JVal.beq, ih]
  · intro a b ih; simp [JVal.beq, ih]
  · intro t x h1 h2 h3 h4 h5 h6
    cases t <;> cases x <;> first
      | exact (h1 rfl rfl).elim
      | exact (h2 _ _ rfl rfl).elim
      | exact (h3 _ _ rfl rfl).elim
      | exact (h4 _ _ rfl rfl).elim
      | exact (h5 _ _ rfl rfl).elim
      | exact (h6 _ _ rfl rfl).elim
      | simp [JVal.beq]
  · simp [JVal.beqList]
  · intro x xs y ys ih1 ih2
    simp [JVal.beqList, ih1, ih2]
  · intro t x h1 h2
    cases t <;> cases x <;> first
      | exact (h1 rfl rfl).elim
      | exact (h2 _ _ _ _ rfl rfl).elim
      | simp [JVal.beqList]
  · simp [JVal.beqFields]
  · intro k v fs l w gs ih1 ih2
    simp [JVal.beqFields, ih1, ih2]
  · intro t x h1 h2
    cases t <;> cases x <;> first
      | exact (h1 rfl rfl).elim
      | exact (h2 _ _ _ _ _ _ rfl rfl).elim
      | simp [JVal.beqFields]

instance : DecidableEq JVal := fun a b => decidable_of_iff _ (JVal.beq_eq a b)

/-- JavaScript `typeof v === 'object'`: true for `null`, arrays and objects. -/
def jsTypeofIsObject : JVal → Bool
  | .null => true
  | .arr _ => true
  | .obj _ => true
  | _ => false

/-- JavaScript truthiness of a `JVal`. -/
def jsTruthy : JVal → Bool
  | .null => false
  | .bool b => b
  | .num n => n != 0
  | .str s => s != ""
  | .arr _ => true
  | .obj _ => true

/-- First-binding lookup in a JavaScript object (keys of a JS object are
unique, so first = only). -/
def lookupField (fields : List (String × JVal)) (k : String) : Option JVal :=
  (fields.find? (fun kv => decide (kv.1 = k))).map (·.2)

/-- A caveat record `{type, value}` (`IOcapLdCaveat`). -/
structure Caveat where
  type : String
  value : JVal
deriving DecidableEq, Repr

/-- Modelled from the spec: `caveatEqual(a, b)` from the absent module
`./src/caveats` — "deep-equal by `type` and `value`". -/
def caveatEqual (a b : Caveat) : Bool :=
  decide (a.type = b.type) && decide (a.value = b.value)

mutual
/-- Modelled from the spec: a canonical serialization of a dynamic value, used
only to order caveat values ("a lexicographic compare on a canonical
serialization is sufficient").  The exact bracket characters are immaterial:
only the induced total preorder on values is used. -/
def serializeJVal : JVal → String
  | .null => "null"
  | .bool b => if b then "true" else "false"
  | .num n => toString n
  | .str s => "s:" ++ s
  | .arr xs => "a:(" ++ serializeJList xs ++ ")"
  | .obj fs => "o:(" ++ serializeJFields fs ++ ")"

def serializeJList : List JVal → String
  | [] => ""
  | x :: xs => serializeJVal x ++ "," ++ serializeJList xs

def serializeJFields : List (String × JVal) → String
  | [] => ""
  | (k, v) :: fs => k ++ ":" ++ serializeJVal v ++ ";" ++ serializeJFields fs
end

/-- Lexicographic comparison of character lists by code point. -/
def lexLe : List Char → List Char → Bool
  | [], _ => true
  | _ :: _, [] => false
  | c :: cs, d :: ds =>
    if c.toNat = d.toNat then lexLe cs ds
    else decide (c.toNat < d.toNat)

/-- The canonical caveat order: ascending by `type`, then by the canonical
serialization of `value` (lexicographic by code point). -/
def caveatLe (a b : Caveat) : Bool :=
  if a.type = b.type then
    lexLe (serializeJVal a.value).toList (serializeJVal b.value).toList
  else lexLe a.type.toList b.type.toList

/-- One insertion-sort step for `sortCaveats`. -/
def insertCaveat (c : Caveat) : List Caveat → List Caveat
  | [] => [c]
  | x :: xs => if caveatLe c x then c :: x :: xs else x :: insertCaveat c xs

/-- Modelled from the spec: `sortCaveats(list)` from the absent module
`./src/caveats` — "in-place sort by the canonical order above; idempotent".
Embedded as a pure insertion sort by `caveatLe`. -/
def sortCaveats (l : List Caveat) : List Caveat :=
  l.foldr insertCaveat []

/-! ## Namespace resolution: `getMethodKeyFor` (src/index.ts lines 186-214) -/

/-- JS `method.split('_')`, written out on the character list: every
occurrence of `'_'` separates two (possibly empty) segments. -/
def splitUnderscore : List Char → List String
  | [] => [""]
  | c :: rest =>
    match splitUnderscore rest with
    | [] => [""]
    | s :: ss =>
      if c = '_' then "" :: s :: ss
      else String.mk (c :: s.data) :: ss

/-- JS `method.indexOf('_') > 0`: the method contains an underscore and does
not start with one. -/
def underscoreAfterPos0 (method : String) : Bool :=
  method.toList.head? != some '_' && method.toList.contains '_'

/-- The `while` loop of `getMethodKeyFor`: keep appending `_`-terminated
segments to the accumulator while segments remain and the accumulator is not
a managed method key. -/
def accumLoop (managedMethods : List String) : List String → String → String
  | [], managed => managed
  | s :: rest, managed =>
    if managed ∈ managedMethods then managed
    else accumLoop managedMethods rest (managed ++ s ++ "_")

/-- `CapabilitiesController.getMethodKeyFor`.  `managedMethods` is
`Object.keys(this.restrictedMethods)`. -/
def getMethodKeyFor (managedMethods : List String) (method : String) : String :=
  if method ∈ managedMethods then method
  else if underscoreAfterPos0 method then
    let managed := accumLoop managedMethods (splitUnderscore method.toList) ""
    if managed ∈ managedMethods then managed else ""
  else if method ∈ managedMethods then method else ""

/-- Concatenation of segments, each terminated by an underscore.  Stated from
the spec's words, independently of the loop. -/
def joinSegs : List String → String
  | [] => ""
  | s :: rest => s ++ "_" ++ joinSegs rest

/-- The accumulated `_`-terminated prefixes of a method, shortest first: the
`i`-th entry is built from the first `i + 1` underscore-separated segments. -/
def accumPrefixes (method : String) : List String :=
  let segs := splitUnderscore method.toList
  (List.range segs.length).map (fun i => joinSegs (segs.take (i + 1)))

/-! ## Data model: errors, capabilities, domains, controller state -/

/-- The error values from `./src/errors` (module absent from src/), abstracted
to the spec's error taxonomy (§4.G); codes and messages are immaterial to the
claims, only the identity of the error value matters. -/
inductive RpcErr where
  | methodNotFound
  | unauthorized
  | invalidReq
  | userRejected
  | generic (message : String)
deriving DecidableEq, Repr

/-- `uuid()` — modelled as a counter-indexed token: `uuid n` is the `n`-th
identifier the process generates. -/
def uuid (n : Nat) : String := "uuid-" ++ toString n

/-- `IOcapLdCapability` minus the constant `@context` tag. -/
structure Capability where
  parentCapability : String
  caveats : Option (List Caveat)
  id : String
  date : Nat
  invoker : String
deriving DecidableEq, Repr

/-- The `Capability` class constructor (src/index.ts lines 60-70): keeps only
`method`, `caveats` and `invoker` from its input and stamps a fresh `uuid()`
and `Date.now()`. -/
def Capability.make (method : String) (caveats : Option (List Caveat))
    (invoker : String) (ctr now : Nat) : Capability × Nat :=
  ({ parentCapability := method, caveats := caveats, id := uuid ctr, date := now,
     invoker := invoker }, ctr + 1)

/-- `IOriginMetadata`: `id = none` stands for an absent `id` property. -/
structure Metadata where
  origin : String
  id : Option String
deriving DecidableEq, Repr

/-- `IRequestedPermissions`: method name ↦ `\x7b caveats? \x7d`. -/
abbrev RequestedPermissions := List (String × Option (List Caveat))

/-- `IPermissionsRequest`. -/
structure PendingRequest where
  origin : String
  metadata : Metadata
  permissions : RequestedPermissions
deriving DecidableEq, Repr

/-- The controller state: the persisted `domains` and `permissionsRequests`
parts, plus the two external effect sources threaded explicitly (`uuid()`
counter and the `Date.now()` timestamp). -/
structure State where
  domains : List (String × List Capability)
  permissionsRequests : List PendingRequest
  ctr : Nat
  now : Nat
deriving DecidableEq, Repr

/-- JS object read `domains[domain]` (keys unique, first = only binding). -/
def domLookup (domains : List (String × List Capability)) (d : String) :
    Option (List Capability) :=
  (domains.find? (fun kv => decide (kv.1 = d))).map (·.2)

/-- JS `domains[domain] = perms`: overwrite in place or append. -/
def domSet (domains : List (String × List Capability)) (d : String)
    (perms : List Capability) : List (String × List Capability) :=
  if domains.any (fun kv => decide (kv.1 = d)) then
    domains.map (fun kv => if kv.1 = d then (d, perms) else kv)
  else domains ++ [(d, perms)]

/-- JS `delete domains[domain]`. -/
def domDelete (domains : List (String × List Capability)) (d : String) :
    List (String × List Capability) :=
  domains.filter (fun kv => decide (kv.1 ≠ d))

/-! ## Permission store (src/index.ts lines 252-506) -/

/-- `getPermissionsForDomain` (lines 256-263). -/
def getPermissionsForDomain (s : State) (domain : String) : List Capability :=
  (domLookup s.domains domain).getD []

/-- `getPermission` (lines 272-279): the first stored capability of the domain
whose `parentCapability` equals `method`. -/
def getPermission (s : State) (domain method : String) : Option Capability :=
  ((getPermissionsForDomain s domain).filter
    (fun p => decide (p.parentCapability = method))).head?

/-- `setDomain` (lines 431-439): store a non-empty entry, delete the key for
an empty one. -/
def setDomain (s : State) (domain : String) (perms : List Capability) : State :=
  if perms.length > 0 then { s with domains := domSet s.domains domain perms }
  else { s with domains := domDelete s.domains domain }

/-- One iteration of the push loop of `addPermissionsFor` (lines 458-466):
construct a fresh `Capability` from the supplied permission's
`parentCapability` and `caveats` only, and append it. -/
def addStep (domainName : String) (now : Nat)
    (acc : List Capability × Nat) (kv : String × Capability) :
    List Capability × Nat :=
  let r := Capability.make kv.2.parentCapability kv.2.caveats domainName acc.2 now
  (acc.1 ++ [r.1], r.2)

/-- `addPermissionsFor` (lines 449-469): drop the old capabilities for the
supplied keys, then push one freshly constructed `Capability` per supplied
permission (built from its `parentCapability` and `caveats` only).
`getOrCreateDomainSettings`'s transient insertion of an empty entry is
invisible here because `setDomain` always rewrites the same key before the
state is published. -/
def addPermissionsFor (s : State) (domainName : String)
    (newPermissions : List (String × Capability)) : State :=
  setDomain
    { s with ctr := (newPermissions.foldl (addStep domainName s.now) ([], s.ctr)).2 }
    domainName
    ((getPermissionsForDomain s domainName).filter
        (fun p => decide (p.parentCapability ∉ newPermissions.map Prod.fst)) ++
      (newPermissions.foldl (addStep domainName s.now) ([], s.ctr)).1)

/-- `removePermissionsFor` (lines 477-499): keep a capability iff no entry of
`permissionsToRemove` shares its `parentCapability`.  (The `undefined` early
return is unreachable: `getDomainSettings` never returns `undefined`.) -/
def removePermissionsFor (s : State) (domainName : String)
    (permissionsToRemove : List Capability) : State :=
  let perms := (getPermissionsForDomain s domainName).filter
    (fun p => !(permissionsToRemove.any
        (fun r => decide (r.parentCapability = p.parentCapability))))
  setDomain s domainName perms

/-- `clearDomains` (lines 504-506). -/
def clearDomains (s : State) : State :=
  { s with domains := [] }

/-- The store invariant of spec §4.C: no domain key maps to an entry with an
empty permissions list. -/
def noEmptyDomains (s : State) : Prop :=
  ∀ kv ∈ s.domains, kv.2 ≠ []

instance (s : State) : Decidable (noEmptyDomains s) :=
  inferInstanceAs (Decidable (∀ kv ∈ s.domains, kv.2 ≠ []))

/-- `removePermissionsRequest` (lines 356-361). -/
def removePermissionsRequest (s : State) (requestId : String) : State :=
  { s with permissionsRequests :=
      s.permissionsRequests.filter (fun r => decide (r.metadata.id ≠ some requestId)) }

/-- The `reduce` of `hasPermissions` (lines 298-304): a JS-object keyed by
`parentCapability`, where a later assignment overwrites an earlier one — the
lookup yields the last capability with the given key. -/
def lookupLast (perms : List Capability) (k : String) : Option Capability :=
  perms.foldl (fun acc p => if p.parentCapability = k then some p else acc) none

/-- The caveat comparison of `hasPermissions` (lines 311-337): caveats absent
on both sides pass; one-sided absence or a length mismatch fails; otherwise
every requested caveat must equal (`caveatEqual`) some existing caveat. -/
def caveatListMatch : Option (List Caveat) → Option (List Caveat) → Bool
  | none, none => true
  | some _, none => false
  | none, some _ => false
  | some rl, some el =>
    decide (rl.length = el.length) &&
      rl.all (fun c => el.any (fun c2 => caveatEqual c c2))

/-- `hasPermissions` (lines 296-340): the first loop returns false as soon as
a requested method has no stored capability; the second compares caveats.
(The `none` arm of the match is unreachable under the first loop's guard.) -/
def hasPermissions (s : State) (domain : String) (requests : RequestedPermissions) :
    Bool :=
  if requests.all
      (fun kv => (lookupLast (getPermissionsForDomain s domain) kv.1).isSome) then
    requests.all (fun kv =>
      match lookupLast (getPermissionsForDomain s domain) kv.1 with
      | some ex => caveatListMatch kv.2 ex.caveats
      | none => true)
  else false

/-! ## Router and executor (src/index.ts lines 138-250) -/

/-- The configuration wired in the constructor: the safe-method list, the
restricted-method registry (key ↦ whether its `method` field is a function),
and `methodPrefix` (field `methodPfx` here). -/
structure Config where
  safeMethods : List String
  restrictedMethods : List (String × Bool)
  methodPfx : String
deriving DecidableEq, Repr

/-- `Object.keys(this.internalMethods)` in registration order (lines 120-122). -/
def internalMethodNames (cfg : Config) : List String :=
  [cfg.methodPfx ++ "getPermissions", cfg.methodPfx ++ "requestPermissions"]

/-- The caveat registry `this.caveats` (line 93): exactly the two built-in
generator names. -/
def caveatRegistryKeys : List String := ["filterParams", "filterResponse"]

/-- Restricted-registry lookup: is the `method` field of the entry a function? -/
def restrictedHasFn (cfg : Config) (k : String) : Bool :=
  ((cfg.restrictedMethods.find? (fun kv => decide (kv.1 = k))).map (·.2)).getD false

/-- What `executeMethod` does with a request. -/
inductive ExecOutcome where
  /-- The terminal restricted method registered under `methodKey` is invoked,
  behind the caveat-filter pipeline `pipeline` (empty = direct invocation). -/
  | run (methodKey : String) (pipeline : List Caveat)
  /-- `res.error = METHOD_NOT_FOUND; end(METHOD_NOT_FOUND)`. -/
  | endedNotFound
  /-- A JavaScript exception escapes `executeMethod`: an unregistered caveat
  type makes `caveatFnGens[serializedCaveat.type]` undefined and line 234
  calls it. -/
  | thrown
deriving DecidableEq, Repr

/-- `executeMethod` (lines 216-250). -/
def executeMethod (cfg : Config) (s : State) (origin method : String) : ExecOutcome :=
  let methodKey := getMethodKeyFor (cfg.restrictedMethods.map Prod.fst) method
  let permission := getPermission s origin method
  if methodKey ≠ "" ∧ restrictedHasFn cfg methodKey then
    match permission with
    | some p =>
      match p.caveats with
      | some cavs =>
        if cavs.length > 0 then
          if cavs.all (fun c => decide (c.type ∈ caveatRegistryKeys)) then
            .run methodKey cavs
          else .thrown
        else .run methodKey []
      | none => .run methodKey []
    | none => .run methodKey []
  else .endedNotFound

/-- What `providerMiddlewareFunction` does with a request. -/
inductive ProviderOutcome where
  /-- `return next()` — safe-method pass-through. -/
  | next
  /-- Dispatch to the internal handler registered under `name`. -/
  | internal (name : String)
  /-- `res.error = e; end(res.error)`. -/
  | ended (e : RpcErr)
  /-- Hand off to `executeMethod`. -/
  | exec (e : ExecOutcome)
deriving DecidableEq, Repr

/-- `providerMiddlewareFunction` (lines 138-174).  `getPermission` cannot
throw in this embedding, so the `catch` branch (the generic `code:1` error)
is unreachable and not represented. -/
def providerMiddlewareFunction (cfg : Config) (s : State) (origin method : String) :
    ProviderOutcome :=
  if method ∈ cfg.safeMethods then .next
  else if method ∈ internalMethodNames cfg then .internal method
  else
    match getPermission s origin method with
    | none => .ended .unauthorized
    | some _ => .exec (executeMethod cfg s origin method)

/-! ## Granting (src/index.ts lines 376-398) -/

inductive GrantOutcome where
  /-- `res.error = e; end(res.error)`. -/
  | errored (e : RpcErr)
  /-- `res.result = getPermissionsForDomain(domain); end()`. -/
  | granted (result : List Capability)
deriving DecidableEq, Repr

/-- One iteration of the build loop of `grantNewPermissions` (lines 390-393):
`permissions[method] = new Capability(...)`. -/
def grantStep (domain : String) (now : Nat)
    (acc : List (String × Capability) × Nat) (kv : String × Option (List Caveat)) :
    List (String × Capability) × Nat :=
  let r := Capability.make kv.1 kv.2 domain acc.2 now
  (acc.1 ++ [(kv.1, r.1)], r.2)

/-- The success branch of `grantNewPermissions` (lines 388-396): build the
`permissions` object with the loop of `grantStep`, then `addPermissionsFor`
it (the `uuid()` counter advances through both loops in order). -/
def grantedState (s : State) (domain : String)
    (approved : RequestedPermissions) : State :=
  addPermissionsFor
    { s with ctr := (approved.foldl (grantStep domain s.now) ([], s.ctr)).2 }
    domain
    (approved.foldl (grantStep domain s.now) ([], s.ctr)).1

/-- `grantNewPermissions` (lines 376-398): validate every approved key via
`getMethodKeyFor` before touching the store, then build one fresh
`Capability` per approved method and `addPermissionsFor` them. -/
def grantNewPermissions (R : List String) (s : State) (domain : String)
    (approved : RequestedPermissions) : State × GrantOutcome :=
  if approved.any (fun kv => decide (getMethodKeyFor R kv.1 = "")) then
    (s, .errored .methodNotFound)
  else
    (grantedState s domain approved,
      .granted (getPermissionsForDomain (grantedState s domain approved) domain))

/-! ## Permission-request workflow (src/index.ts lines 508-622) -/

/-- A JSON-RPC request to `requestPermissions`: `none` params models an
absent `params` property. -/
structure Req where
  params : Option (List JVal)
deriving DecidableEq, Repr

def isNullJ : JVal → Bool
  | .null => true
  | _ => false

/-- The fields of an object value (other values have none). -/
def jFields : JVal → List (String × JVal)
  | .obj fs => fs
  | _ => []

inductive FinalizeOutcome where
  /-- `res.error = invalidReq(req); return false`. -/
  | invalid
  /-- A TypeError escapes: `Object.keys(null)`, or the `.caveats` read on a
  `null` descriptor in the canonicalization loop. -/
  | thrown
  /-- `return true` (the caveat lists in `req.params[0]` now sorted). -/
  | ok
deriving DecidableEq, Repr

/-- `finalizePermissionsRequest` (lines 508-529).  Note `typeof null ===
'object'` in JavaScript, so a `null` first param reaches `Object.keys` and
throws rather than being rejected. -/
def finalizePermissionsRequest (req : Option Req) : FinalizeOutcome :=
  match req with
  | none => .invalid
  | some r =>
    match r.params with
    | none => .invalid
    | some ps =>
      match ps.head? with
      | none => .invalid
      | some v =>
        if !jsTypeofIsObject v then .invalid
        else match v with
          | .arr _ => .invalid
          | .null => .thrown
          | .obj fs =>
            if fs.length = 0 then .invalid
            else if fs.any (fun kv => isNullJ kv.2) then .thrown
            else .ok
          | _ => .invalid

/-- Decoding a stored caveat object out of `req.params[0]` (a typed-boundary
coercion: the JS code keeps using the same dynamic object). -/
def decodeCaveatJ : JVal → Option Caveat
  | .obj fs =>
    match lookupField fs "type" with
    | some (.str t) => some { type := t, value := (lookupField fs "value").getD .null }
    | _ => none
  | _ => none

/-- Reading `req.params[0]` as `IRequestedPermissions` after validation, with
each caveat list canonicalized (`sortCaveats` sorted it in place). -/
def decodeRequested (v : JVal) : RequestedPermissions :=
  match v with
  | .obj fs => fs.map (fun kv =>
      (kv.1,
        match lookupField (jFields kv.2) "caveats" with
        | some (.arr cs) => some (sortCaveats (cs.filterMap decodeCaveatJ))
        | _ => none))
  | _ => []

/-- Reading an `IOriginMetadata` out of a dynamic `metadata` value. -/
def decodeMetaJ (v : JVal) : Metadata :=
  { origin :=
      (match lookupField (jFields v) "origin" with
        | some (.str o) => o
        | _ => ""),
    id :=
      (match lookupField (jFields v) "id" with
        | some (.str i) => some i
        | _ => none) }

/-- The spread merge `{ ...req.params[1].metadata, ...metadata }` (line 541):
the caller-supplied metadata's own properties win. -/
def mergeMetadata (meta : Metadata) (extra : Option Metadata) : Metadata :=
  match extra with
  | some ex =>
    { origin := meta.origin,
      id := match meta.id with
        | some v => some v
        | none => ex.id }
  | none => meta

/-- `getFinalizedRequestMetadata` (lines 531-549): shallow-merge the extra
metadata under the caller-supplied metadata, then assign a fresh `uuid()`
when `id` is still absent or falsy. -/
def getFinalizedRequestMetadata (meta : Metadata) (extra : Option Metadata)
    (ctr : Nat) : Metadata × Nat :=
  match (mergeMetadata meta extra).id with
  | some v =>
    if v = "" then ({ mergeMetadata meta extra with id := some (uuid ctr) }, ctr + 1)
    else (mergeMetadata meta extra, ctr)
  | none => ({ mergeMetadata meta extra with id := some (uuid ctr) }, ctr + 1)

/-- The synchronous part of `requestPermissionsMiddleware`, up to and
including the `requestUserApproval` call. -/
inductive Phase1Out where
  /-- `return end(res.error)` without prompting. -/
  | ended (e : RpcErr)
  /-- A TypeError escapes the middleware. -/
  | thrown
  /-- `res.result = getPermissionsForDomain(origin); return end()` — the
  subset fast path, no prompt. -/
  | fastPath (result : List Capability)
  /-- The pending request was pushed onto `permissionsRequests` and the
  user-approval prompt was issued for it. -/
  | prompted (preq : PendingRequest)
deriving DecidableEq, Repr

/-- `requestPermissionsMiddleware` (lines 566-595): validation, metadata
finalization, the `hasPermissions` fast path, enqueueing, prompt. -/
def requestPermissionsPhase1 (s : State) (meta : Metadata) (req : Option Req) :
    State × Phase1Out :=
  match finalizePermissionsRequest req with
  | .invalid => (s, .ended .invalidReq)
  | .thrown => (s, .thrown)
  | .ok =>
    let ps := ((req.map Req.params).getD none).getD []
    let p0 := ps.head?.getD .null
    match (if ps.length = 2 then ps.get? 1 else none) with
    | some .null => (s, .thrown)
    | o =>
      let extra : Option Metadata :=
        match o with
        | some v2 =>
          match lookupField (jFields v2) "metadata" with
          | some mv => if jsTruthy mv then some (decodeMetaJ mv) else none
          | none => none
        | none => none
      let (m, ctr') := getFinalizedRequestMetadata meta extra s.ctr
      let requested := decodeRequested p0
      let s1 := { s with ctr := ctr' }
      if hasPermissions s1 m.origin requested then
        (s1, .fastPath (getPermissionsForDomain s1 m.origin))
      else
        let preq : PendingRequest :=
          { origin := m.origin, metadata := m, permissions := requested }
        ({ s1 with permissionsRequests := s1.permissionsRequests ++ [preq] },
          .prompted preq)

/-- A terminal state of the user-approval future. -/
inductive Approval where
  /-- The promise resolved with the approved permissions (possibly empty). -/
  | resolved (approved : RequestedPermissions)
  /-- The promise rejected with `reason`. -/
  | rejected (reason : RpcErr)
deriving DecidableEq, Repr

/-- The response the settled handler ends with. -/
inductive SettleResp where
  | endedErr (e : RpcErr)
  | endedOk (result : List Capability)
deriving DecidableEq, Repr

/-- The `.then`/`.catch`/`.finally` continuation of
`requestPermissionsMiddleware` (lines 595-622), run when the approval future
reaches a terminal state with the store in state `s`. -/
def settle (R : List String) (s : State) (preq : PendingRequest)
    (approval : Approval) : State × SettleResp :=
  let step : State × SettleResp :=
    match approval with
    | .resolved approved =>
      if approved.length = 0 then (s, .endedErr .userRejected)
      else
        match preq.metadata.id with
        | none => (s, .endedErr .invalidReq)
        | some v =>
          if v = "" then (s, .endedErr .invalidReq)
          else
            match grantNewPermissions R s preq.metadata.origin approved with
            | (s', .errored e) => (s', .endedErr e)
            | (s', .granted result) => (s', .endedOk result)
    | .rejected reason => (s, .endedErr reason)
  let s2 :=
    match preq.metadata.id with
    | some v => if v ≠ "" then removePermissionsRequest step.1 v else step.1
    | none => step.1
  (s2, step.2)

/-! ## Concrete scenarios used in counterexamples and witnesses -/

/-- The spec's namespace scenario: `restrictedMethods = ["plugin_"]`. -/
def nsCfg : Config :=
  { safeMethods := [], restrictedMethods := [("plugin_", true)], methodPfx := "" }

/-- A capability for the namespace key `plugin_` held by origin `o`. -/
def nsCap : Capability :=
  { parentCapability := "plugin_", caveats := none, id := "cap-1", date := 0,
    invoker := "o" }

/-- Domain `o` holds exactly the `plugin_` capability. -/
def nsState : State :=
  { domains := [("o", [nsCap])], permissionsRequests := [], ctr := 0, now := 0 }

/-- A caveat whose type is registered in no caveat-function registry. -/
def unkCaveat : Caveat := { type := "unknownCaveatType", value := .null }

/-- `restrictedMethods = ["readContacts"]`. -/
def rcCfg : Config :=
  { safeMethods := [], restrictedMethods := [("readContacts", true)], methodPfx := "" }

/-- A `readContacts` capability carrying the unregistered caveat. -/
def rcCap : Capability :=
  { parentCapability := "readContacts", caveats := some [unkCaveat],
    id := "cap-2", date := 0, invoker := "o" }

/-- Domain `o` holds a `readContacts` capability carrying the unregistered
caveat. -/
def rcState : State :=
  { domains := [("o", [rcCap])], permissionsRequests := [], ctr := 0, now := 0 }

/-- A fresh controller state with no domains and no pending requests. -/
def emptyState : State :=
  { domains := [], permissionsRequests := [], ctr := 0, now := 0 }

/-- A capability handed to `addPermissionsFor` that names a foreign invoker
and reuses an id and date. -/
def evilCap : Capability :=
  { parentCapability := "m", caveats := none, id := "stolen-id", date := 77,
    invoker := "evil" }

/-- Same `parentCapability` and `caveats` as `evilCap`, different
`invoker`/`id`/`date`. -/
def plainCap : Capability :=
  { parentCapability := "m", caveats := none, id := "other-id", date := 88,
    invoker := "elsewhere" }

/-- Two caveats of equal type and distinct values. -/
def dupCavA : Caveat := { type := "filterParams", value := .num 1 }

/-- See `dupCavA`. -/
def dupCavB : Caveat := { type := "filterParams", value := .num 2 }

/-- A stored capability for `m` with canonical caveat list `[a, b]`. -/
def dupCap : Capability :=
  { parentCapability := "m", caveats := some [dupCavA, dupCavB], id := "cap-3",
    date := 0, invoker := "o" }

/-- Domain `o` holds `dupCap`. -/
def dupState : State :=
  { domains := [("o", [dupCap])], permissionsRequests := [], ctr := 0, now := 0 }

/-- A request for `m` with the duplicated (still canonically sorted) caveat
list `[a, a]`. -/
def dupRequests : RequestedPermissions := [("m", some [dupCavA, dupCavA])]

/-- A well-formed `requestPermissions` request for method `m`, no caveats, no
extra metadata. -/
def c7Req : Req := { params := some [.obj [("m", .obj [])]] }

/-- The caller-supplied origin metadata, with no `id` property. -/
def c7Meta : Metadata := { origin := "o", id := none }

/-- The pending request `requestPermissionsPhase1` enqueues for `c7Req` from
the empty state: its metadata carries the first generated uuid. -/
def c7Preq : PendingRequest :=
  { origin := "o", metadata := { origin := "o", id := some (uuid 0) },
    permissions := [("m", none)] }

/-- The state after the enqueue of `c7Preq`. -/
def c7State : State :=
  { domains := [], permissionsRequests := [c7Preq], ctr := 1, now := 0 }

/-!
## Theorems

General lemmas first, then one theorem (with witness or counterexample) per
claim, in claim order.
-/

theorem caveatEqual_iff (a b : Caveat) : caveatEqual a b = true ↔ a = b := by
  cases a; cases b
  simp [caveatEqual, Caveat.mk.injEq]

theorem accumLoop_of_mem {R : List String} {p : String} (hp : p ∈ R) :
    ∀ segs, accumLoop R segs p = p := by
  intro segs; cases segs <;> simp [accumLoop, hp]

theorem accumLoop_spec (R : List String) (segs : List String) (p : String) (hp : p ∉ R) :
    (if accumLoop R segs p ∈ R then accumLoop R segs p else "") =
      (((List.range segs.length).map
          (fun i => p ++ joinSegs (segs.take (i + 1)))).find?
        (fun c => decide (c ∈ R))).getD "" := by
  induction segs generalizing p with
  | nil => simp [accumLoop, hp]
  | cons s rest ih =>
    have hstep : accumLoop R (s :: rest) p = accumLoop R rest (p ++ s ++ "_") := by
      simp [accumLoop, hp]
    have hhead : p ++ joinSegs ((s :: rest).take (0 + 1)) = p ++ s ++ "_" := by
      simp [joinSegs, String.append_empty, String.append_assoc]
    have htail :
        (List.range rest.length).map
            (fun i => p ++ joinSegs ((s :: rest).take (i + 1 + 1))) =
          (List.range rest.length).map
            (fun i => (p ++ s ++ "_") ++ joinSegs (rest.take (i + 1))) := by
      apply List.map_congr_left
      intro i _
      simp [joinSegs, String.append_assoc]
    rw [hstep]
    rw [List.length_cons, List.range_succ_eq_map, List.map_cons, List.map_map]
    have hmaps :
        (List.map ((fun i => p ++ joinSegs ((s :: rest).take (i + 1))) ∘ Nat.succ)
          (List.range rest.length)) =
        (List.range rest.length).map
            (fun i => (p ++ s ++ "_") ++ joinSegs (rest.take (i + 1))) := by
      rw [← htail]; rfl
    rw [hmaps]
    by_cases hmem : (p ++ s ++ "_") ∈ R
    · rw [accumLoop_of_mem hmem]
      rw [List.find?_cons]
      simp only [hhead]
      simp [hmem]
    · rw [List.find?_cons]
      simp only [hhead]
      have : (decide ((p ++ s ++ "_") ∈ R)) = false := by simp [hmem]
      simp only [this]
      exact ih (p ++ s ++ "_") hmem

/-- **C5.** For every method string, `getMethodKeyFor` returns the method
itself when it is exactly a restricted-method key; otherwise, when the method
contains `_` after position 0, it returns the first (hence shortest, the list
being ordered by segment count) underscore-terminated accumulated prefix of
the method's `_`-separated segments that is a restricted-method key, and the
empty string when no such prefix matches; when the method has no underscore
after position 0 (and is not itself a key) it returns the empty string.
Hypothesis: the empty string is not itself a restricted-method key. -/
theorem getMethodKeyFor_resolution (R : List String) (method : String)
    (hR : "" ∉ R) :
    (method ∈ R → getMethodKeyFor R method = method) ∧
    (method ∉ R → underscoreAfterPos0 method = true →
      getMethodKeyFor R method =
        ((accumPrefixes method).find? (fun c => decide (c ∈ R))).getD "") ∧
    (method ∉ R → underscoreAfterPos0 method = false →
      getMethodKeyFor R method = "") := by
  refine ⟨fun h => by simp [getMethodKeyFor, h], fun h hu => ?_,
    fun h hu => by simp [getMethodKeyFor, h, hu]⟩
  have hm : (List.range (splitUnderscore method.toList).length).map
        (fun i => "" ++ joinSegs ((splitUnderscore method.toList).take (i + 1))) =
      accumPrefixes method := by
    simp only [accumPrefixes]
    exact List.map_congr_left (fun i _ => by rw [String.empty_append])
  have hkey : getMethodKeyFor R method =
      (if accumLoop R (splitUnderscore method.toList) "" ∈ R then
        accumLoop R (splitUnderscore method.toList) "" else "") := by
    simp [getMethodKeyFor, h, hu]
  rw [hkey, accumLoop_spec R _ "" hR, hm]

/-- Witness for C5 at the spec's own scenario: `restrictedMethods`
`["plugin_"]` and request method `plugin_foo_bar` resolve to `plugin_`. -/
theorem getMethodKeyFor_resolution_witness :
    ("" : String) ∉ ["plugin_"] ∧
    ("plugin_foo_bar" : String) ∉ ["plugin_"] ∧
    underscoreAfterPos0 "plugin_foo_bar" = true ∧
    getMethodKeyFor ["plugin_"] "plugin_foo_bar" =
      ((accumPrefixes "plugin_foo_bar").find?
        (fun c => decide (c ∈ ["plugin_"]))).getD "" ∧
    getMethodKeyFor ["plugin_"] "plugin_foo_bar" = "plugin_" :=
  ⟨by decide, by decide, by decide,
    (getMethodKeyFor_resolution ["plugin_"] "plugin_foo_bar" (by decide)).2.1
      (by decide) (by decide),
    by decide⟩

/-- **C6.** `providerMiddlewareFunction` checks `safeMethods` first (yielding
to `next` with no authorization, for every permission state and registry),
then the internal-method table, then restricted-method authorization; in
particular a method in both `safeMethods` and `restrictedMethods` passes
through as safe without any permission check. -/
theorem providerMiddleware_routing_priority (cfg : Config) (s : State)
    (origin method : String) :
    (method ∈ cfg.safeMethods →
      providerMiddlewareFunction cfg s origin method = .next) ∧
    (method ∉ cfg.safeMethods → method ∈ internalMethodNames cfg →
      providerMiddlewareFunction cfg s origin method = .internal method) ∧
    (method ∉ cfg.safeMethods → method ∉ internalMethodNames cfg →
      providerMiddlewareFunction cfg s origin method = .ended .unauthorized ∨
      providerMiddlewareFunction cfg s origin method =
        .exec (executeMethod cfg s origin method)) := by
  refine ⟨fun h => by simp [providerMiddlewareFunction, h],
    fun h1 h2 => by simp [providerMiddlewareFunction, h1, h2],
    fun h1 h2 => ?_⟩
  simp only [providerMiddlewareFunction, if_neg h1, if_neg h2]
  cases getPermission s origin method <;> simp

/-- Witness for C6: `foo` is both safe and restricted, the domain holds no
capability at all, and the request still passes through as safe. -/
theorem providerMiddleware_routing_priority_witness :
    ("foo" : String) ∈ ["foo"] ∧
    providerMiddlewareFunction
      { safeMethods := ["foo"], restrictedMethods := [("foo", true)],
        methodPfx := "" }
      { domains := [], permissionsRequests := [], ctr := 0, now := 0 }
      "o" "foo" = .next :=
  ⟨by decide,
    (providerMiddleware_routing_priority _ _ "o" "foo").1 (by decide)⟩

/-- **C1, counterexample.** With restricted key `plugin_` and domain `o`
holding a capability for `plugin_` itself, the request `plugin_foo_bar`
resolves (via `getMethodKeyFor`) to `plugin_`, yet
`providerMiddlewareFunction` ends with `unauthorized` instead of dispatching:
the claim that holding the resolved key's capability authorizes the call is
false on the code. -/
theorem provider_resolved_key_authorization_counterexample :
    getMethodKeyFor ["plugin_"] "plugin_foo_bar" = "plugin_" ∧
    getPermission nsState "o" "plugin_" = some nsCap ∧
    providerMiddlewareFunction nsCfg nsState "o" "plugin_foo_bar" =
      .ended .unauthorized :=
  ⟨by decide, by decide, by decide⟩

/-- **C1, amended.** The authorization decision in
`providerMiddlewareFunction` is made against the capability for the full
request method name — the resolved method key only selects the
implementation inside `executeMethod`: for a method that is neither safe nor
internal, `unauthorized` is returned iff the domain holds no capability whose
`parentCapability` equals the full method name, and whenever such a
capability exists the call is handed to `executeMethod`. -/
theorem provider_authorizes_by_full_method_name (cfg : Config) (s : State)
    (origin method : String) (h1 : method ∉ cfg.safeMethods)
    (h2 : method ∉ internalMethodNames cfg) :
    (providerMiddlewareFunction cfg s origin method = .ended .unauthorized ↔
      getPermission s origin method = none) ∧
    (∀ p, getPermission s origin method = some p →
      providerMiddlewareFunction cfg s origin method =
        .exec (executeMethod cfg s origin method)) := by
  simp only [providerMiddlewareFunction, if_neg h1, if_neg h2]
  cases h : getPermission s origin method <;> simp

/-- Witness for the amended C1 at the namespace scenario. -/
theorem provider_authorizes_by_full_method_name_witness :
    ((providerMiddlewareFunction nsCfg nsState "o" "plugin_foo_bar" =
        .ended .unauthorized ↔
      getPermission nsState "o" "plugin_foo_bar" = none) ∧
    (∀ p, getPermission nsState "o" "plugin_foo_bar" = some p →
      providerMiddlewareFunction nsCfg nsState "o" "plugin_foo_bar" =
        .exec (executeMethod nsCfg nsState "o" "plugin_foo_bar"))) :=
  provider_authorizes_by_full_method_name nsCfg nsState "o" "plugin_foo_bar"
    (by decide) (by decide)

/-- **C3.** (code bug in the dispatch) An authorized restricted-method call
whose permission carries a caveat of a type not in the caveat registry does
not end with an `invalid params` response error value: line 234 calls the
`undefined` generator, so a TypeError is thrown across the middleware
boundary.  The terminal restricted method is indeed not invoked. -/
theorem executeMethod_unknown_caveat_throws :
    ("unknownCaveatType" : String) ∉ caveatRegistryKeys ∧
    getPermission rcState "o" "readContacts" ≠ none ∧
    executeMethod rcCfg rcState "o" "readContacts" = .thrown ∧
    providerMiddlewareFunction rcCfg rcState "o" "readContacts" =
      .exec .thrown :=
  ⟨by decide, by decide, by decide, by decide⟩

theorem caveatListMatch_iff (rc ec : Option (List Caveat)) :
    caveatListMatch rc ec = true ↔
      ((rc = none ∧ ec = none) ∨
        ∃ rl el, rc = some rl ∧ ec = some el ∧ rl.length = el.length ∧
          ∀ c ∈ rl, c ∈ el) := by
  cases rc with
  | none =>
    cases ec with
    | none => simp [caveatListMatch]
    | some el => simp [caveatListMatch]
  | some rl =>
    cases ec with
    | none => simp [caveatListMatch]
    | some el =>
      simp only [caveatListMatch, Bool.and_eq_true, decide_eq_true_eq,
        List.all_eq_true, List.any_eq_true, caveatEqual_iff]
      constructor
      · rintro ⟨hlen, hsub⟩
        refine Or.inr ⟨rl, el, rfl, rfl, hlen, fun c hc => ?_⟩
        obtain ⟨c2, hc2, he⟩ := hsub c hc
        exact he ▸ hc2
      · rintro (⟨h, _⟩ | ⟨rl', el', hrl, hel, hlen, hsub⟩)
        · cases h
        · obtain rfl : rl = rl' := by injection hrl
          obtain rfl : el = el' := by injection hel
          exact ⟨hlen, fun c hc => ⟨c, hsub c hc, rfl⟩⟩

theorem hasPermissions_iff (s : State) (domain : String)
    (requests : RequestedPermissions) :
    hasPermissions s domain requests = true ↔
      ∀ kv ∈ requests,
        ∃ ex, lookupLast (getPermissionsForDomain s domain) kv.1 = some ex ∧
          caveatListMatch kv.2 ex.caveats = true := by
  unfold hasPermissions
  by_cases htot : requests.all
      (fun kv => (lookupLast (getPermissionsForDomain s domain) kv.1).isSome) = true
  · rw [if_pos htot]
    rw [List.all_eq_true] at htot
    rw [List.all_eq_true]
    constructor
    · intro h2 kv hkv
      obtain ⟨ex, hex⟩ := Option.isSome_iff_exists.mp (htot kv hkv)
      have h3 := h2 kv hkv
      simp only [hex] at h3
      exact ⟨ex, hex, h3⟩
    · intro h2 kv hkv
      obtain ⟨ex, hex, hm⟩ := h2 kv hkv
      simp only [hex]
      exact hm
  · rw [if_neg htot]
    constructor
    · intro h; cases h
    · intro h2
      exfalso
      apply htot
      rw [List.all_eq_true]
      intro kv hkv
      obtain ⟨ex, hex, _⟩ := h2 kv hkv
      simp [hex]

/-- **C2, counterexample.** With both caveat lists already canonical
(`sortCaveats` leaves them unchanged), `hasPermissions` returns true for the
requested caveat list `[a, a]` against the single stored capability's caveat
list `[a, b]`, although the two lists are not equal as multisets: the claimed
"iff multiset-equal" fails on the code for duplicated requested caveats. -/
theorem hasPermissions_not_multiset_counterexample :
    sortCaveats [dupCavA, dupCavA] = [dupCavA, dupCavA] ∧
    sortCaveats [dupCavA, dupCavB] = [dupCavA, dupCavB] ∧
    getPermissionsForDomain dupState "o" = [dupCap] ∧
    dupCap.caveats = some [dupCavA, dupCavB] ∧
    dupRequests = [("m", some [dupCavA, dupCavA])] ∧
    hasPermissions dupState "o" dupRequests = true ∧
    ¬ List.Perm [dupCavA, dupCavA] [dupCavA, dupCavB] :=
  ⟨by decide, by decide, by decide, by decide, by decide, by decide, by decide⟩

/-- **C2, amended.** `hasPermissions(domain, requests)` returns true iff, for
every requested method, the domain's stored capability for it (the last one
listed) exists and its caveat list matches the requested one in the weaker
sense actually implemented: both absent, or both present with equal length
and every requested caveat equal to some stored caveat.  When every requested
caveat list is duplicate-free this coincides with multiset equality (the
claim as written); with duplicated requested caveats it is strictly weaker,
per the counterexample. -/
theorem hasPermissions_caveat_check (s : State) (domain : String)
    (requests : RequestedPermissions) :
    (hasPermissions s domain requests = true ↔
      ∀ kv ∈ requests,
        ∃ ex, lookupLast (getPermissionsForDomain s domain) kv.1 = some ex ∧
          ((kv.2 = none ∧ ex.caveats = none) ∨
            ∃ rl el, kv.2 = some rl ∧ ex.caveats = some el ∧
              rl.length = el.length ∧ ∀ c ∈ rl, c ∈ el)) ∧
    ((∀ kv ∈ requests, ∀ rl, kv.2 = some rl → rl.Nodup) →
      (hasPermissions s domain requests = true ↔
        ∀ kv ∈ requests,
          ∃ ex, lookupLast (getPermissionsForDomain s domain) kv.1 = some ex ∧
            ((kv.2 = none ∧ ex.caveats = none) ∨
              ∃ rl el, kv.2 = some rl ∧ ex.caveats = some el ∧ rl.Perm el))) := by
  have base := hasPermissions_iff s domain requests
  constructor
  · rw [base]
    constructor
    · intro h kv hkv
      obtain ⟨ex, hex, hm⟩ := h kv hkv
      exact ⟨ex, hex, (caveatListMatch_iff _ _).mp hm⟩
    · intro h kv hkv
      obtain ⟨ex, hex, hm⟩ := h kv hkv
      exact ⟨ex, hex, (caveatListMatch_iff _ _).mpr hm⟩
  · intro hnd
    rw [base]
    constructor
    · intro h kv hkv
      obtain ⟨ex, hex, hm⟩ := h kv hkv
      rcases (caveatListMatch_iff _ _).mp hm with
        ⟨h1, h2⟩ | ⟨rl, el, hrl, hel, hlen, hsub⟩
      · exact ⟨ex, hex, Or.inl ⟨h1, h2⟩⟩
      · refine ⟨ex, hex, Or.inr ⟨rl, el, hrl, hel, ?_⟩⟩
        have hn : rl.Nodup := hnd kv hkv rl hrl
        have hsubs : rl ⊆ el := fun {c} hc => hsub c hc
        exact (hn.subperm hsubs).perm_of_length_le (le_of_eq hlen.symm)
    · intro h kv hkv
      obtain ⟨ex, hex, hm⟩ := h kv hkv
      refine ⟨ex, hex, (caveatListMatch_iff _ _).mpr ?_⟩
      rcases hm with ⟨h1, h2⟩ | ⟨rl, el, hrl, hel, hperm⟩
      · exact Or.inl ⟨h1, h2⟩
      · exact Or.inr ⟨rl, el, hrl, hel, hperm.length_eq,
          fun c hc => hperm.subset hc⟩

/-- Witness for the amended C2: the duplicate-caveat scenario satisfies the
containment characterization. -/
theorem hasPermissions_caveat_check_witness :
    hasPermissions dupState "o" dupRequests = true ∧
    ∀ kv ∈ dupRequests,
      ∃ ex, lookupLast (getPermissionsForDomain dupState "o") kv.1 = some ex ∧
        ((kv.2 = none ∧ ex.caveats = none) ∨
          ∃ rl el, kv.2 = some rl ∧ ex.caveats = some el ∧
            rl.length = el.length ∧ ∀ c ∈ rl, c ∈ el) :=
  ⟨by decide,
    (hasPermissions_caveat_check dupState "o" dupRequests).1.mp (by decide)⟩

theorem domLookup_map_overwrite (d : String) (v : List Capability) :
    ∀ ds : List (String × List Capability),
      ds.any (fun kv => decide (kv.1 = d)) = true →
      domLookup (ds.map (fun kv => if kv.1 = d then (d, v) else kv)) d = some v := by
  intro ds
  induction ds with
  | nil => intro h; simp at h
  | cons kv rest ih =>
    intro hany
    rw [List.map_cons]
    by_cases hk : kv.1 = d
    · rw [if_pos hk]
      simp [domLookup, List.find?_cons]
    · rw [if_neg hk]
      have hrest : rest.any (fun kv => decide (kv.1 = d)) = true := by
        rw [List.any_cons] at hany
        rcases Bool.or_eq_true_iff.mp hany with h | h
        · exact absurd (of_decide_eq_true h) hk
        · exact h
      unfold domLookup at ih ⊢
      rw [List.find?_cons]
      have hk2 : (decide (kv.1 = d)) = false := decide_eq_false hk
      simp only [hk2]
      exact ih hrest

theorem domLookup_domSet_self (ds : List (String × List Capability))
    (d : String) (v : List Capability) :
    domLookup (domSet ds d v) d = some v := by
  unfold domSet
  by_cases hany : ds.any (fun kv => decide (kv.1 = d)) = true
  · rw [if_pos hany]
    exact domLookup_map_overwrite d v ds hany
  · rw [if_neg hany]
    unfold domLookup
    rw [List.find?_append]
    have h1 : ds.find? (fun kv => decide (kv.1 = d)) = none := by
      rw [List.find?_eq_none]
      intro x hx hpx
      exact hany (List.any_eq_true.mpr ⟨x, hx, hpx⟩)
    rw [h1]
    simp [List.find?_cons]

theorem domLookup_domDelete_self (ds : List (String × List Capability))
    (d : String) : domLookup (domDelete ds d) d = none := by
  unfold domLookup domDelete
  have h1 : (ds.filter (fun kv => decide (kv.1 ≠ d))).find?
      (fun kv => decide (kv.1 = d)) = none := by
    rw [List.find?_eq_none]
    intro x hx hpx
    have h2 := (List.mem_filter.mp hx).2
    exact (of_decide_eq_true h2) (of_decide_eq_true hpx)
  rw [h1]
  rfl

theorem noEmptyDomains_setDomain {s : State} (h : noEmptyDomains s)
    (d : String) (perms : List Capability) :
    noEmptyDomains (setDomain s d perms) := by
  unfold setDomain
  by_cases hp : perms.length > 0
  · rw [if_pos hp]
    intro kv hkv
    have hne : perms ≠ [] := List.length_pos.mp hp
    unfold domSet at hkv
    split at hkv
    · obtain ⟨kv0, hkv0, heq⟩ := List.mem_map.mp hkv
      by_cases hk : kv0.1 = d
      · rw [if_pos hk] at heq
        rw [← heq]
        exact hne
      · rw [if_neg hk] at heq
        exact heq ▸ h kv0 hkv0
    · rcases List.mem_append.mp hkv with h1 | h2
      · exact h kv h1
      · have he : kv = (d, perms) := by simpa using h2
        rw [he]
        exact hne
  · rw [if_neg hp]
    intro kv hkv
    exact h kv (List.mem_filter.mp hkv).1

theorem noEmptyDomains_ctr {s : State} (h : noEmptyDomains s) (c : Nat) :
    noEmptyDomains { s with ctr := c } := h

/-- **C9.** After every store operation no domain key maps to an empty
permissions list (given the invariant held before): `setDomain` stores a
non-empty entry and deletes the domain key entirely for an empty one — so
removing a domain's last capability makes the key absent from the registry —
and `addPermissionsFor`, `removePermissionsFor` and `clearDomains` all
publish through `setDomain` (resp. the empty registry). -/
theorem store_no_empty_domain_entries (s : State) (d : String)
    (perms : List Capability) (newPerms : List (String × Capability))
    (toRemove : List Capability) (h : noEmptyDomains s) :
    noEmptyDomains (setDomain s d perms) ∧
    (perms = [] → domLookup (setDomain s d perms).domains d = none) ∧
    noEmptyDomains (addPermissionsFor s d newPerms) ∧
    noEmptyDomains (removePermissionsFor s d toRemove) ∧
    noEmptyDomains (clearDomains s) := by
  refine ⟨noEmptyDomains_setDomain h d perms, ?_, ?_, ?_, ?_⟩
  · intro hp
    subst hp
    unfold setDomain
    rw [if_neg (by simp)]
    exact domLookup_domDelete_self s.domains d
  · unfold addPermissionsFor
    exact noEmptyDomains_setDomain (noEmptyDomains_ctr h _) d _
  · unfold removePermissionsFor
    exact noEmptyDomains_setDomain h d _
  · intro kv hkv
    cases hkv

/-- Witness for C9: removing the only capability of domain `o` leaves the
registry without the key `o`, and all operations preserve the invariant on a
concrete state. -/
theorem store_no_empty_domain_entries_witness :
    noEmptyDomains (setDomain nsState "o" []) ∧
    domLookup (setDomain nsState "o" []).domains "o" = none ∧
    noEmptyDomains (addPermissionsFor nsState "o" []) ∧
    noEmptyDomains (removePermissionsFor nsState "o" [nsCap]) ∧
    noEmptyDomains (clearDomains nsState) := by
  have h := store_no_empty_domain_entries nsState "o" [] [] [nsCap] (by decide)
  exact ⟨h.1, h.2.1 rfl, h.2.2.1, h.2.2.2.1, h.2.2.2.2⟩

theorem getPermissionsForDomain_setDomain_self (s : State) (d : String)
    (perms : List Capability) :
    getPermissionsForDomain (setDomain s d perms) d =
      if perms.length > 0 then perms else [] := by
  unfold setDomain
  by_cases hp : perms.length > 0
  · rw [if_pos hp, if_pos hp]
    unfold getPermissionsForDomain
    simp [domLookup_domSet_self]
  · rw [if_neg hp, if_neg hp]
    unfold getPermissionsForDomain
    simp [domLookup_domDelete_self]

theorem addStep_foldl_mem (d : String) (now : Nat) :
    ∀ (ps : List (String × Capability)) (acc : List Capability × Nat)
      (cap : Capability), cap ∈ (ps.foldl (addStep d now) acc).1 →
      cap ∈ acc.1 ∨
        (cap.invoker = d ∧ cap.date = now ∧
          (∃ n, acc.2 ≤ n ∧ cap.id = uuid n) ∧
          ∃ kv ∈ ps, cap.parentCapability = kv.2.parentCapability ∧
            cap.caveats = kv.2.caveats) := by
  intro ps
  induction ps with
  | nil => intro acc cap hm; exact Or.inl hm
  | cons kv rest ih =>
    intro acc cap hm
    rw [List.foldl_cons] at hm
    rcases ih (addStep d now acc kv) cap hm with hin |
      ⟨h1, h2, ⟨n, hn, hid⟩, kv2, hkv2, h3, h4⟩
    · rcases List.mem_append.mp hin with ha | hb
      · exact Or.inl ha
      · have hc : cap =
            (Capability.make kv.2.parentCapability kv.2.caveats d acc.2 now).1 := by
          simpa using hb
        refine Or.inr ?_
        rw [hc]
        exact ⟨rfl, rfl, ⟨acc.2, le_refl _, rfl⟩, kv, List.mem_cons_self _ _,
          rfl, rfl⟩
    · exact Or.inr ⟨h1, h2, ⟨n, Nat.le_of_succ_le hn, hid⟩, kv2,
        List.mem_cons_of_mem _ hkv2, h3, h4⟩

theorem addStep_foldl_congr (d : String) (now : Nat)
    {ps1 ps2 : List (String × Capability)}
    (hf : List.Forall₂ (fun a b : String × Capability =>
      a.1 = b.1 ∧ a.2.parentCapability = b.2.parentCapability ∧
        a.2.caveats = b.2.caveats) ps1 ps2) :
    ∀ acc, ps1.foldl (addStep d now) acc = ps2.foldl (addStep d now) acc := by
  induction hf with
  | nil => intro acc; rfl
  | cons h _ ih =>
    intro acc
    rw [List.foldl_cons, List.foldl_cons]
    have hstep : ∀ a b : String × Capability,
        a.2.parentCapability = b.2.parentCapability → a.2.caveats = b.2.caveats →
        addStep d now acc a = addStep d now acc b := by
      intro a b hpc hcv
      unfold addStep Capability.make
      rw [hpc, hcv]
    rw [hstep _ _ h.2.1 h.2.2]
    exact ih _

theorem forall2_fst_eq {ps1 ps2 : List (String × Capability)}
    (hf : List.Forall₂ (fun a b : String × Capability =>
      a.1 = b.1 ∧ a.2.parentCapability = b.2.parentCapability ∧
        a.2.caveats = b.2.caveats) ps1 ps2) :
    ps1.map Prod.fst = ps2.map Prod.fst := by
  induction hf with
  | nil => rfl
  | cons h _ ih => simp [h.1, ih]

/-- **C10.** Every capability stored by `addPermissionsFor(domainName, ...)`
has `invoker` equal to the `domainName` argument, a freshly generated id
(`uuid` of a counter value at or past the pre-state counter) and the current
date, built from the supplied capability's `parentCapability` and `caveats`
only; moreover two supplied permission maps that agree on keys,
`parentCapability` and `caveats` — with arbitrary `invoker`, `id` and `date`
— produce identical post-states: those three supplied fields are discarded,
so no caller can store a capability naming a different invoker or reuse an
existing id. -/
theorem addPermissionsFor_fresh_capabilities (s : State) (domainName : String)
    (ps : List (String × Capability)) :
    (∀ cap ∈ getPermissionsForDomain (addPermissionsFor s domainName ps)
        domainName,
      cap ∈ getPermissionsForDomain s domainName ∨
        (cap.invoker = domainName ∧ cap.date = s.now ∧
          (∃ n, s.ctr ≤ n ∧ cap.id = uuid n) ∧
          ∃ kv ∈ ps, cap.parentCapability = kv.2.parentCapability ∧
            cap.caveats = kv.2.caveats)) ∧
    (∀ ps2 : List (String × Capability),
      List.Forall₂ (fun a b : String × Capability =>
        a.1 = b.1 ∧ a.2.parentCapability = b.2.parentCapability ∧
          a.2.caveats = b.2.caveats) ps ps2 →
      addPermissionsFor s domainName ps = addPermissionsFor s domainName ps2) := by
  constructor
  · intro cap hcap
    unfold addPermissionsFor at hcap
    rw [getPermissionsForDomain_setDomain_self] at hcap
    split at hcap
    · rcases List.mem_append.mp hcap with hk | hn
      · exact Or.inl (List.mem_filter.mp hk).1
      · rcases addStep_foldl_mem domainName s.now ps ([], s.ctr) cap hn with
          h0 | hp
        · cases h0
        · exact Or.inr hp
    · cases hcap
  · intro ps2 hf
    unfold addPermissionsFor
    rw [forall2_fst_eq hf, addStep_foldl_congr domainName s.now hf]

/-- Witness for C10: a supplied capability naming a foreign invoker and a
reused id yields the same post-state as one with entirely different
`invoker`/`id`/`date` fields, and the stored capability facts hold. -/
theorem addPermissionsFor_fresh_capabilities_witness :
    addPermissionsFor emptyState "o" [("m", evilCap)] =
      addPermissionsFor emptyState "o" [("m", plainCap)] ∧
    ∀ cap ∈ getPermissionsForDomain (addPermissionsFor emptyState "o"
        [("m", evilCap)]) "o",
      cap ∈ getPermissionsForDomain emptyState "o" ∨
        (cap.invoker = "o" ∧ cap.date = emptyState.now ∧
          (∃ n, emptyState.ctr ≤ n ∧ cap.id = uuid n) ∧
          ∃ kv ∈ [("m", evilCap)], cap.parentCapability = kv.2.parentCapability ∧
            cap.caveats = kv.2.caveats) :=
  ⟨(addPermissionsFor_fresh_capabilities emptyState "o" [("m", evilCap)]).2
      [("m", plainCap)] (List.Forall₂.cons ⟨rfl, rfl, rfl⟩ List.Forall₂.nil),
    (addPermissionsFor_fresh_capabilities emptyState "o" [("m", evilCap)]).1⟩

theorem grantStep_foldl_acc_sub (d : String) (now : Nat) :
    ∀ (approved : RequestedPermissions)
      (acc : List (String × Capability) × Nat),
      ∀ p ∈ acc.1, p ∈ (approved.foldl (grantStep d now) acc).1 := by
  intro approved
  induction approved with
  | nil => intro acc p hp; exact hp
  | cons kv rest ih =>
    intro acc p hp
    rw [List.foldl_cons]
    exact ih _ p (List.mem_append.mpr (Or.inl hp))

theorem grantStep_foldl_covers (d : String) (now : Nat) :
    ∀ (approved : RequestedPermissions)
      (acc : List (String × Capability) × Nat),
      ∀ kv ∈ approved, ∃ p ∈ (approved.foldl (grantStep d now) acc).1,
        p.2.parentCapability = kv.1 ∧ p.2.caveats = kv.2 := by
  intro approved
  induction approved with
  | nil => intro acc kv hkv; cases hkv
  | cons kv0 rest ih =>
    intro acc kv hkv
    rw [List.foldl_cons]
    rcases List.mem_cons.mp hkv with heq | hmem
    · subst heq
      refine ⟨(kv.1, (Capability.make kv.1 kv.2 d acc.2 now).1), ?_, rfl, rfl⟩
      apply grantStep_foldl_acc_sub
      exact List.mem_append.mpr (Or.inr (List.mem_singleton.mpr rfl))
    · exact ih _ kv hmem

theorem addStep_foldl_acc_sub (d : String) (now : Nat) :
    ∀ (ps : List (String × Capability)) (acc : List Capability × Nat),
      ∀ c ∈ acc.1, c ∈ (ps.foldl (addStep d now) acc).1 := by
  intro ps
  induction ps with
  | nil => intro acc c hc; exact hc
  | cons kv rest ih =>
    intro acc c hc
    rw [List.foldl_cons]
    exact ih _ c (List.mem_append.mpr (Or.inl hc))

theorem addStep_foldl_covers (d : String) (now : Nat) :
    ∀ (ps : List (String × Capability)) (acc : List Capability × Nat),
      ∀ kv ∈ ps, ∃ cap ∈ (ps.foldl (addStep d now) acc).1,
        cap.parentCapability = kv.2.parentCapability ∧
          cap.caveats = kv.2.caveats ∧ cap.invoker = d := by
  intro ps
  induction ps with
  | nil => intro acc kv hkv; cases hkv
  | cons kv0 rest ih =>
    intro acc kv hkv
    rw [List.foldl_cons]
    rcases List.mem_cons.mp hkv with heq | hmem
    · subst heq
      refine ⟨(Capability.make kv.2.parentCapability kv.2.caveats d acc.2 now).1,
        ?_, rfl, rfl, rfl⟩
      apply addStep_foldl_acc_sub
      exact List.mem_append.mpr (Or.inr (List.mem_singleton.mpr rfl))
    · exact ih _ kv hmem

theorem getPermissionsForDomain_addPermissionsFor_mem (s : State) (d : String)
    (ps : List (String × Capability)) (cap : Capability)
    (hcap : cap ∈ (ps.foldl (addStep d s.now) ([], s.ctr)).1) :
    cap ∈ getPermissionsForDomain (addPermissionsFor s d ps) d := by
  unfold addPermissionsFor
  rw [getPermissionsForDomain_setDomain_self]
  have hmem : cap ∈ (getPermissionsForDomain s d).filter
      (fun p => decide (p.parentCapability ∉ ps.map Prod.fst)) ++
      (ps.foldl (addStep d s.now) ([], s.ctr)).1 :=
    List.mem_append.mpr (Or.inr hcap)
  rw [if_pos (List.length_pos.mpr (List.ne_nil_of_mem hmem))]
  exact hmem

/-- **C8.** `grantNewPermissions` validates every approved method name via
`getMethodKeyFor` before touching the store: if any fails to resolve, the
response is `METHOD_NOT_FOUND` and the state — in particular the domain's
stored permissions — is entirely unchanged (no approved method is granted,
not even resolving ones); otherwise every approved method is granted as a
fresh `Capability` (with that method as `parentCapability`, the domain as
`invoker` and the approved caveats) and `res.result` is the domain's full
permission list.  (Holds for every approved mapping, in particular non-empty
ones.) -/
theorem grantNewPermissions_validate_then_grant (R : List String) (s : State)
    (domain : String) (approved : RequestedPermissions) :
    ((∃ kv ∈ approved, getMethodKeyFor R kv.1 = "") →
      grantNewPermissions R s domain approved = (s, .errored .methodNotFound)) ∧
    ((∀ kv ∈ approved, getMethodKeyFor R kv.1 ≠ "") →
      (grantNewPermissions R s domain approved).2 =
        .granted (getPermissionsForDomain
          (grantNewPermissions R s domain approved).1 domain) ∧
      ∀ kv ∈ approved,
        ∃ cap ∈ getPermissionsForDomain
            (grantNewPermissions R s domain approved).1 domain,
          cap.parentCapability = kv.1 ∧ cap.invoker = domain ∧
            cap.caveats = kv.2) := by
  constructor
  · rintro ⟨kv, hkv, hk⟩
    unfold grantNewPermissions
    rw [if_pos (List.any_eq_true.mpr ⟨kv, hkv, decide_eq_true hk⟩)]
  · intro hall
    have hcond : (approved.any
        (fun kv => decide (getMethodKeyFor R kv.1 = ""))) ≠ true := by
      intro hc
      obtain ⟨kv, hkv, hk⟩ := List.any_eq_true.mp hc
      exact hall kv hkv (of_decide_eq_true hk)
    have heq : grantNewPermissions R s domain approved =
        (grantedState s domain approved,
          .granted (getPermissionsForDomain (grantedState s domain approved)
            domain)) := by
      unfold grantNewPermissions
      rw [if_neg hcond]
    rw [heq]
    refine ⟨rfl, ?_⟩
    intro kv hkv
    obtain ⟨p, hp, hp1, hp2⟩ :=
      grantStep_foldl_covers domain s.now approved ([], s.ctr) kv hkv
    obtain ⟨cap, hcap, hc1, hc2, hc3⟩ := addStep_foldl_covers domain s.now
      (approved.foldl (grantStep domain s.now) ([], s.ctr)).1
      ([], (approved.foldl (grantStep domain s.now) ([], s.ctr)).2) p hp
    exact ⟨cap,
      getPermissionsForDomain_addPermissionsFor_mem
        { s with ctr := (approved.foldl (grantStep domain s.now) ([], s.ctr)).2 }
        domain _ cap hcap,
      hc1.trans hp1, hc3, hc2.trans hp2⟩

/-- Witness for C8: granting `badMethod` (unresolvable) fails with
`METHOD_NOT_FOUND` and leaves the empty state unchanged; granting
`readContacts` stores a capability for it with invoker `o`. -/
theorem grantNewPermissions_validate_then_grant_witness :
    grantNewPermissions ["readContacts"] emptyState "o" [("badMethod", none)] =
      (emptyState, .errored .methodNotFound) ∧
    (grantNewPermissions ["readContacts"] emptyState "o"
        [("readContacts", none)]).2 =
      .granted (getPermissionsForDomain
        (grantNewPermissions ["readContacts"] emptyState "o"
          [("readContacts", none)]).1 "o") ∧
    ∀ kv ∈ ([("readContacts", none)] : RequestedPermissions),
      ∃ cap ∈ getPermissionsForDomain
          (grantNewPermissions ["readContacts"] emptyState "o"
            [("readContacts", none)]).1 "o",
        cap.parentCapability = kv.1 ∧ cap.invoker = "o" ∧ cap.caveats = kv.2 := by
  refine ⟨?_, ?_⟩
  · exact (grantNewPermissions_validate_then_grant ["readContacts"] emptyState
      "o" [("badMethod", none)]).1
      ⟨("badMethod", none), List.mem_singleton.mpr rfl, by decide⟩
  · exact (grantNewPermissions_validate_then_grant ["readContacts"] emptyState
      "o" [("readContacts", none)]).2 (by decide)

/-- **C4, counterexample.** `req.params = [null]`: `typeof null === 'object'`
and `null` is not an array, so the validation condition reaches
`Object.keys(null)`, which throws a TypeError across the middleware boundary
— `requestPermissions` does not end with `invalidReq(req)` as an error
value on that input, contradicting the claim for a non-object first
element. -/
theorem finalize_null_param_counterexample :
    finalizePermissionsRequest (some { params := some [JVal.null] }) =
      .thrown ∧
    requestPermissionsPhase1 emptyState { origin := "o", id := none }
        (some { params := some [JVal.null] }) = (emptyState, .thrown) :=
  ⟨rfl, rfl⟩

/-- **C4, amended.** For every `requestPermissions` request whose `params` is
missing, or whose first element is missing, of non-object `typeof`, an array,
or an empty object, the handler ends with `res.error = invalidReq(req)` as an
error value, and no pending request is enqueued and no user prompt occurs
(the middleware returns with the state unchanged); however a `null` first
element, or a `null` value inside a non-empty object first element, causes a
TypeError to be thrown instead of an error value; for every request whose
first element is a non-array, non-empty object none of whose values is
`null`, validation succeeds. -/
theorem finalizePermissionsRequest_validation (s : State) (meta : Metadata) :
    (∀ req : Option Req,
      (req = none ∨ (∃ r, req = some r ∧ r.params = none) ∨
        (∃ r ps, req = some r ∧ r.params = some ps ∧
          (ps.head? = none ∨
            (∃ v, ps.head? = some v ∧ jsTypeofIsObject v = false) ∨
            (∃ xs, ps.head? = some (.arr xs)) ∨
            ps.head? = some (.obj [])))) →
      finalizePermissionsRequest req = .invalid ∧
      requestPermissionsPhase1 s meta req = (s, .ended .invalidReq)) ∧
    (∀ (r : Req) (ps : List JVal), r.params = some ps → ps.head? = some .null →
      finalizePermissionsRequest (some r) = .thrown) ∧
    (∀ (r : Req) (ps : List JVal) (fs : List (String × JVal)),
      r.params = some ps → ps.head? = some (.obj fs) → fs ≠ [] →
      (∃ kv ∈ fs, kv.2 = .null) →
      finalizePermissionsRequest (some r) = .thrown) ∧
    (∀ (r : Req) (ps : List JVal) (fs : List (String × JVal)),
      r.params = some ps → ps.head? = some (.obj fs) → fs ≠ [] →
      (∀ kv ∈ fs, kv.2 ≠ .null) →
      finalizePermissionsRequest (some r) = .ok) := by
  refine ⟨?_, ?_, ?_, ?_⟩
  · rintro req (rfl | ⟨r, rfl, hp⟩ | ⟨r, ps, rfl, hp, hcase⟩)
    · exact ⟨rfl, rfl⟩
    · refine ⟨by simp [finalizePermissionsRequest, hp], ?_⟩
      simp [requestPermissionsPhase1, finalizePermissionsRequest, hp]
    · have hfin : finalizePermissionsRequest (some r) = .invalid := by
        rcases hcase with h0 | ⟨v, hv, hto⟩ | ⟨xs, hxs⟩ | hobj
        · simp [finalizePermissionsRequest, hp, h0]
        · cases v <;>
            simp_all [finalizePermissionsRequest, hp, hv, jsTypeofIsObject]
        · simp [finalizePermissionsRequest, hp, hxs, jsTypeofIsObject]
        · simp [finalizePermissionsRequest, hp, hobj, jsTypeofIsObject]
      exact ⟨hfin, by simp [requestPermissionsPhase1, hfin]⟩
  · intro r ps hp hv
    simp [finalizePermissionsRequest, hp, hv, jsTypeofIsObject]
  · intro r ps fs hp hv hne hnull
    obtain ⟨kv, hkv, hkvn⟩ := hnull
    have hany : fs.any (fun kv => isNullJ kv.2) = true :=
      List.any_eq_true.mpr ⟨kv, hkv, by rw [hkvn]; rfl⟩
    have hlen : ¬ fs.length = 0 := by
      simpa [List.length_eq_zero] using hne
    simp [finalizePermissionsRequest, hp, hv, jsTypeofIsObject, hlen, hany]
  · intro r ps fs hp hv hne hnn
    have hany : fs.any (fun kv => isNullJ kv.2) = false := by
      rw [List.any_eq_false]
      intro kv hkv
      have := hnn kv hkv
      cases hkv2 : kv.2 <;> first
        | exact absurd hkv2 this
        | simp [hkv2, isNullJ]
    have hlen : ¬ fs.length = 0 := by
      simpa [List.length_eq_zero] using hne
    simp [finalizePermissionsRequest, hp, hv, jsTypeofIsObject, hlen, hany]

/-- Witness for the amended C4: a numeric first param is rejected with
`invalidReq` and no state change, and a well-formed request passes
validation. -/
theorem finalizePermissionsRequest_validation_witness :
    (finalizePermissionsRequest (some { params := some [JVal.num 5] }) =
        .invalid ∧
      requestPermissionsPhase1 emptyState { origin := "o", id := none }
        (some { params := some [JVal.num 5] }) =
        (emptyState, .ended .invalidReq)) ∧
    finalizePermissionsRequest
      (some { params := some [JVal.obj [("m", JVal.obj [])]] }) = .ok :=
  ⟨(finalizePermissionsRequest_validation emptyState
      { origin := "o", id := none }).1 (some { params := some [JVal.num 5] })
      (Or.inr (Or.inr ⟨{ params := some [JVal.num 5] }, [JVal.num 5], rfl, rfl,
        Or.inr (Or.inl ⟨JVal.num 5, rfl, rfl⟩)⟩)),
    (finalizePermissionsRequest_validation emptyState
      { origin := "o", id := none }).2.2.2
      { params := some [JVal.obj [("m", JVal.obj [])]] }
      [JVal.obj [("m", JVal.obj [])]] [("m", JVal.obj [])] rfl rfl
      (by decide) (by decide)⟩

theorem uuid_ne_empty (n : Nat) : uuid n ≠ "" := by
  intro h
  have hl : (uuid n).length = 0 := by rw [h]; rfl
  rw [uuid, String.length_append] at hl
  have h5 : ("uuid-" : String).length = 5 := rfl
  rw [h5] at hl
  omega

theorem getFinalizedRequestMetadata_id (meta : Metadata)
    (extra : Option Metadata) (ctr : Nat) :
    ∃ v, (getFinalizedRequestMetadata meta extra ctr).1.id = some v ∧ v ≠ "" := by
  unfold getFinalizedRequestMetadata
  split
  · split
    · exact ⟨uuid ctr, rfl, uuid_ne_empty ctr⟩
    · next v heq hv => exact ⟨v, heq, hv⟩
  · exact ⟨uuid ctr, rfl, uuid_ne_empty ctr⟩

theorem phase1_prompted_props (s s2 : State) (meta : Metadata)
    (req : Option Req) (preq : PendingRequest)
    (h : requestPermissionsPhase1 s meta req = (s2, .prompted preq)) :
    (∃ v, preq.metadata.id = some v ∧ v ≠ "") ∧
    s2.permissionsRequests = s.permissionsRequests ++ [preq] := by
  simp only [requestPermissionsPhase1] at h
  repeat' split at h
  all_goals (
    rw [Prod.mk.injEq] at h
    obtain ⟨hs, hout⟩ := h
    first
      | exact Phase1Out.noConfusion hout
      | (rw [Phase1Out.prompted.injEq] at hout
         subst hout
         subst hs
         exact ⟨getFinalizedRequestMetadata_id meta _ s.ctr, rfl⟩))

theorem settle_removes (R : List String) (s2 : State) (preq : PendingRequest)
    (approval : Approval) (v : String) (hid : preq.metadata.id = some v)
    (hv : v ≠ "") :
    ∀ r ∈ (settle R s2 preq approval).1.permissionsRequests,
      r.metadata.id ≠ preq.metadata.id := by
  intro r hr
  simp only [settle] at hr
  simp only [hid] at hr
  rw [if_pos hv] at hr
  simp only [removePermissionsRequest] at hr
  have h2 := (List.mem_filter.mp hr).2
  rw [hid]
  exact of_decide_eq_true h2

/-- **C7.** Every `requestPermissions` call that enqueues a pending request
(the `prompted` outcome of the synchronous phase) first assigns its metadata
a truthy `id` — a fresh `uuid()` when the caller supplied none — and pushes
exactly that request onto `permissionsRequests`; and after the approval
future reaches any terminal state (resolved non-empty and granted, resolved
non-empty with an unknown method, resolved empty/user-rejected, or rejected),
the `.finally` cleanup leaves no request with that `metadata.id` in the
queue, whatever the queue holds at settlement time. -/
theorem requestPermissions_cleanup (s s2 : State) (meta : Metadata)
    (req : Option Req) (preq : PendingRequest)
    (h : requestPermissionsPhase1 s meta req = (s2, .prompted preq)) :
    (∃ v, preq.metadata.id = some v ∧ v ≠ "") ∧
    s2.permissionsRequests = s.permissionsRequests ++ [preq] ∧
    ∀ (R : List String) (s3 : State) (approval : Approval),
      ∀ r ∈ (settle R s3 preq approval).1.permissionsRequests,
        r.metadata.id ≠ preq.metadata.id := by
  obtain ⟨⟨v, hid, hv⟩, hq⟩ := phase1_prompted_props s s2 meta req preq h
  exact ⟨⟨v, hid, hv⟩, hq,
    fun R s3 approval => settle_removes R s3 preq approval v hid hv⟩

/-- Witness for C7: the concrete request `c7Req` from the empty state is
enqueued with the fresh id `uuid 0`, and settling it (here: user rejection)
leaves the queue without it. -/
theorem requestPermissions_cleanup_witness :
    (∃ v, c7Preq.metadata.id = some v ∧ v ≠ "") ∧
    c7State.permissionsRequests = emptyState.permissionsRequests ++ [c7Preq] ∧
    ∀ (R : List String) (s3 : State) (approval : Approval),
      ∀ r ∈ (settle R s3 c7Preq approval).1.permissionsRequests,
        r.metadata.id ≠ c7Preq.metadata.id :=
  requestPermissions_cleanup emptyState c7State c7Meta (some c7Req) c7Preq
    (by decide)

end RpcCap
